import Mathlib

/-
Verification of the package-assembly pipeline (src/cargo/ops/cargo_package.rs).

Paths are modelled as lists of components (`FsPath`); an absolute path is a list
whose head is the empty component, so that `String.intercalate "/"` renders it
with a leading slash.  Byte-wise path ordering is modelled by a character-level
lexicographic order that the kernel can evaluate.
-/

abbrev FsPath := List String

def pathDisplay (p : FsPath) : String := String.intercalate "/" p

/-- Character order used for path comparison: by code point, which agrees with
the byte order of the UTF-8 encoding used by the source. -/
def charsLe : List Char → List Char → Bool
  | [], _ => true
  | _ :: _, [] => false
  | a :: as, b :: bs =>
    if a.toNat < b.toNat then true
    else if b.toNat < a.toNat then false
    else charsLe as bs

def strLe (a b : String) : Bool := charsLe a.data b.data

/-- Component-wise (lexicographic) order on paths, mirroring the ordering of
`PathBuf` values used by the source's final sort. -/
def pathLe : FsPath → FsPath → Bool
  | [], _ => true
  | _ :: _, [] => false
  | a :: as, b :: bs =>
    if a = b then pathLe as bs
    else strLe a b

theorem char_toNat_inj {a b : Char} (h : a.toNat = b.toNat) : a = b := by
  have h1 := Char.ofNat_toNat a
  have h2 := Char.ofNat_toNat b
  rw [h] at h1
  rw [← h1, h2]

theorem charsLe_refl (x : List Char) : charsLe x x = true := by
  induction x with
  | nil => rfl
  | cons a as ih => simp [charsLe, ih]

theorem charsLe_total (x y : List Char) : charsLe x y = true ∨ charsLe y x = true := by
  induction x generalizing y with
  | nil => exact Or.inl rfl
  | cons a as ih =>
    cases y with
    | nil => exact Or.inr rfl
    | cons b bs =>
      rcases Nat.lt_trichotomy a.toNat b.toNat with h | h | h
      · left; simp [charsLe, h]
      · rcases ih bs with h2 | h2
        · left; simp [charsLe, h, h2]
        · right; simp [charsLe, h.symm, h2]
      · right; simp [charsLe, h]

theorem charsLe_trans {x y z : List Char} (h1 : charsLe x y = true)
    (h2 : charsLe y z = true) : charsLe x z = true := by
  induction x generalizing y z with
  | nil => rfl
  | cons a as ih =>
    cases y with
    | nil => simp [charsLe] at h1
    | cons b bs =>
      cases z with
      | nil => simp [charsLe] at h2
      | cons c cs =>
        simp only [charsLe] at h1 h2 ⊢
        rcases Nat.lt_trichotomy a.toNat b.toNat with hab | hab | hab
        · rcases Nat.lt_trichotomy b.toNat c.toNat with hbc | hbc | hbc
          · simp [Nat.lt_trans hab hbc]
          · have hac : a.toNat < c.toNat := hbc ▸ hab
            simp [hac]
          · rw [if_neg (by omega), if_pos hbc] at h2
            simp at h2
        · rcases Nat.lt_trichotomy b.toNat c.toNat with hbc | hbc | hbc
          · have hac : a.toNat < c.toNat := hab ▸ hbc
            simp [hac]
          · rw [if_neg (by omega), if_neg (by omega)] at h1 h2 ⊢
            exact ih h1 h2
          · rw [if_neg (by omega), if_pos hbc] at h2
            simp at h2
        · rw [if_neg (by omega), if_pos hab] at h1
          simp at h1

theorem charsLe_antisymm {x y : List Char} (h1 : charsLe x y = true)
    (h2 : charsLe y x = true) : x = y := by
  induction x generalizing y with
  | nil =>
    cases y with
    | nil => rfl
    | cons b bs => simp [charsLe] at h2
  | cons a as ih =>
    cases y with
    | nil => simp [charsLe] at h1
    | cons b bs =>
      simp only [charsLe] at h1 h2
      split_ifs at h1 h2 with hab hba <;> try omega
      have hn : a.toNat = b.toNat := by omega
      rw [char_toNat_inj hn, ih h1 h2]

theorem strLe_total (a b : String) : strLe a b = true ∨ strLe b a = true :=
  charsLe_total a.data b.data

theorem strLe_trans {a b c : String} (h1 : strLe a b = true) (h2 : strLe b c = true) :
    strLe a c = true :=
  charsLe_trans h1 h2

theorem strLe_antisymm {a b : String} (h1 : strLe a b = true) (h2 : strLe b a = true) :
    a = b :=
  String.ext (charsLe_antisymm h1 h2)

theorem pathLe_refl (x : FsPath) : pathLe x x = true := by
  induction x with
  | nil => rfl
  | cons a as ih => simp [pathLe, ih]

theorem pathLe_total (x y : FsPath) : pathLe x y = true ∨ pathLe y x = true := by
  induction x generalizing y with
  | nil => exact Or.inl rfl
  | cons a as ih =>
    cases y with
    | nil => exact Or.inr rfl
    | cons b bs =>
      by_cases hab : a = b
      · subst hab
        rcases ih bs with h | h
        · left; simp [pathLe, h]
        · right; simp [pathLe, h]
      · rcases strLe_total a b with h | h
        · left; simp [pathLe, hab, h]
        · right; simp [pathLe, Ne.symm hab, h]

theorem pathLe_trans {x y z : FsPath} (h1 : pathLe x y = true)
    (h2 : pathLe y z = true) : pathLe x z = true := by
  induction x generalizing y z with
  | nil => rfl
  | cons a as ih =>
    cases y with
    | nil => simp [pathLe] at h1
    | cons b bs =>
      cases z with
      | nil => simp [pathLe] at h2
      | cons c cs =>
        simp only [pathLe] at h1 h2 ⊢
        by_cases hab : a = b <;> by_cases hbc : b = c
        · subst hab; subst hbc
          simp_all
          exact ih h1 h2
        · subst hab; simp_all
        · subst hbc; simp_all
        · simp only [hab, hbc, if_false] at h1 h2
          by_cases hac : a = c
          · subst hac
            exact absurd (strLe_antisymm h1 h2) hab
          · simp [hac, strLe_trans h1 h2]

theorem pathLe_antisymm {x y : FsPath} (h1 : pathLe x y = true)
    (h2 : pathLe y x = true) : x = y := by
  induction x generalizing y with
  | nil =>
    cases y with
    | nil => rfl
    | cons b bs => simp [pathLe] at h2
  | cons a as ih =>
    cases y with
    | nil => simp [pathLe] at h1
    | cons b bs =>
      simp only [pathLe] at h1 h2
      by_cases hab : a = b
      · subst hab
        simp_all
        exact ih h1 h2
      · simp only [hab, Ne.symm hab, if_false] at h1 h2
        exact absurd (strLe_antisymm h1 h2) hab

def PathLeP (a b : FsPath) : Prop := pathLe a b = true

instance : DecidableRel PathLeP := fun _ _ => inferInstanceAs (Decidable (_ = true))

instance : IsTotal FsPath PathLeP := ⟨pathLe_total⟩

instance : IsTrans FsPath PathLeP := ⟨fun _ _ _ => pathLe_trans⟩

instance : IsAntisymm FsPath PathLeP := ⟨fun _ _ => pathLe_antisymm⟩

def StrLeP (a b : String) : Prop := strLe a b = true

instance : DecidableRel StrLeP := fun _ _ => inferInstanceAs (Decidable (_ = true))

instance : IsTotal String StrLeP := ⟨strLe_total⟩

instance : IsTrans String StrLeP := ⟨fun _ _ _ => strLe_trans⟩

instance : IsAntisymm String StrLeP := ⟨fun _ _ => strLe_antisymm⟩

/-
Data model, translated from src/cargo/ops/cargo_package.rs.
External collaborators (git repository introspection, manifest parsing, the
filesystem, resolver, builder) are supplied as explicit inputs/oracles.
-/

def VCS_INFO_FILE : String := ".cargo_vcs_info.json"

structure ManifestMetadata where
  description : Option String
  license : Option String
  license_file : Option FsPath
  documentation : Option String
  homepage : Option String
  repository : Option String
deriving DecidableEq

structure Dependency where
  name_in_toml : String
  is_path : Bool
  specified_req : Bool
  is_transitive : Bool
deriving DecidableEq

structure Package where
  root : FsPath
  name : String
  version : String
  include_lockfile : Bool
  metadata : ManifestMetadata
  excludePats : List String
  includePats : List String
  dependencies : List Dependency
deriving DecidableEq

def Package.manifest_path (p : Package) : FsPath := p.root ++ ["Cargo.toml"]

inductive GeneratedFile where
  | manifest (pkg : Package)
  | lockfile
  | vcsInfo (s : String)
deriving DecidableEq

inductive FileContents where
  | onDisk (p : FsPath)
  | generated (g : GeneratedFile)
deriving DecidableEq

structure ArchiveFile where
  rel_path : FsPath
  rel_str : String
  contents : FileContents
deriving DecidableEq

/-- Boolean test that `base` is a leading segment of `p` (Rust `starts_with`). -/
def leadsWith : FsPath → FsPath → Bool
  | [], _ => true
  | _ :: _, [] => false
  | a :: as, b :: bs => (a == b) && leadsWith as bs

/-- Rust `strip_prefix` returning `Err` when `base` does not lead `p`. -/
def relUnder (base p : FsPath) : Option FsPath :=
  if leadsWith base p then some (p.drop base.length) else none

/-- Rust `strip_prefix(..).unwrap_or(path)`. -/
def relOrSelf (base p : FsPath) : FsPath :=
  if leadsWith base p then p.drop base.length else p

/- Filename validation (check_filename). -/

def badChars : List Char := ['/', '\\', '<', '>', ':', '"', '|', '?', '*']

def lowerChar (c : Char) : Char :=
  if 65 ≤ c.toNat ∧ c.toNat ≤ 90 then Char.ofNat (c.toNat + 32) else c

def strLower (s : String) : String := ⟨s.data.map lowerChar⟩

/-- Modelled from the spec: the helper `restricted_names::is_windows_reserved_path`
is not among this repository's source files; the spec describes it as flagging "a
reserved device name on a target platform (case-insensitive, extension-agnostic)".
The reserved Windows device names are checked against the filename's stem (the
part before the first dot), case-insensitively. -/
def windowsReservedNames : List String :=
  ["con", "prn", "aux", "nul",
   "com1", "com2", "com3", "com4", "com5", "com6", "com7", "com8", "com9",
   "lpt1", "lpt2", "lpt3", "lpt4", "lpt5", "lpt6", "lpt7", "lpt8", "lpt9"]

def stemOf (name : String) : String := ⟨name.data.takeWhile (· ≠ '.')⟩

def isWindowsReservedPath (file : FsPath) : Bool :=
  windowsReservedNames.contains (strLower (stemOf (file.getLastD "")))

/-- Translation of `check_filename`.  Returns the warnings emitted on success.
Paths in this model are always unicode, so the non-unicode bail-out of the
source cannot fire and is not represented. -/
def check_filename (file : FsPath) : Except String (List String) :=
  match file.getLast? with
  | none => .ok []
  | some name =>
    match badChars.find? (fun c => name.data.contains c) with
    | some c =>
      .error ("cannot package a filename with a special character `" ++
        c.toString ++ "`: " ++ pathDisplay file)
    | none =>
      if isWindowsReservedPath file then
        .ok ["file " ++ pathDisplay file ++
          " is a reserved Windows filename, it will not work on Windows platforms"]
      else
        .ok []

/- Dependency validation (verify_dependencies). -/

def verify_dependencies (pkg : Package) : Except String Unit :=
  match pkg.dependencies.find? (fun d => d.is_path && !d.specified_req && d.is_transitive) with
  | some d =>
    .error ("all path dependencies must have a version specified when packaging.\ndependency `"
      ++ d.name_in_toml ++ "` does not specify a version.")
  | none => .ok ()

/- Git repository state (check_repo_state / git / open_submodules).
A repository handle is its workdir, a status oracle (None models a
`status_file` error), the resolved HEAD revision (None models a `revparse`
failure), and its submodules (None models a submodule that fails to open). -/

inductive Repo where
  | mk (workdir : Option FsPath) (statusOf : FsPath → Option Nat)
      (headRev : Option String) (submodules : List (Option Repo))

def Repo.workdir : Repo → Option FsPath
  | .mk w _ _ _ => w

def Repo.statusOf : Repo → FsPath → Option Nat
  | .mk _ s _ _ => s

def Repo.headRev : Repo → Option String
  | .mk _ _ h _ => h

def Repo.submodules : Repo → List (Option Repo)
  | .mk _ _ _ s => s

def STATUS_CURRENT : Nat := 0

def STATUS_IGNORED : Nat := 16384

def osStrLen (p : FsPath) : Nat := (pathDisplay p).length

mutual

def openSubmodules : Repo → List (FsPath × Repo)
  | .mk _ _ _ subs => openSubmodulesList subs

def openSubmodulesList : List (Option Repo) → List (FsPath × Repo)
  | [] => []
  | none :: rest => openSubmodulesList rest
  | some sub :: rest =>
    openSubmodules sub ++ [((sub.workdir).getD [], sub)] ++ openSubmodulesList rest

end

/-- Sub-repositories sorted so that longest workdir paths come first, as in the
source's descending sort. -/
def sortedSubRepos (repo : Repo) : List (FsPath × Repo) :=
  List.insertionSort (fun a b : FsPath × Repo => osStrLen b.1 ≤ osStrLen a.1)
    (openSubmodules repo)

def submoduleDirty (subs : List (FsPath × Repo)) (file : FsPath) : Bool :=
  ((subs.filter (fun s => leadsWith s.1 file)).any (fun s =>
    match s.2.statusOf (file.drop s.1.length) with
    | some status => decide (status ≠ STATUS_CURRENT)
    | none => false))

/-- The per-file dirtiness test inside `git`.  The source unwraps the
workdir-relative path; `relOrSelf` stands in for that unwrap (the claims only
concern candidate files below the workdir, where the two agree). -/
def fileDirty (repo : Repo) (workdir : FsPath) (subs : List (FsPath × Repo))
    (file : FsPath) : Bool :=
  let relative := relOrSelf workdir file
  match repo.statusOf relative with
  | some status =>
    if status = STATUS_CURRENT then false
    else if relative.getLastD "" = "Cargo.lock" then decide (status ≠ STATUS_IGNORED)
    else true
  | none => submoduleDirty subs file

inductive GitError where
  | dirtyFiles (files : List String)
  | revparseFailed
deriving DecidableEq

/-- Rendering of the dirty-files failure, as formatted by the source. -/
def dirtyFilesMessage (files : List String) : String :=
  toString files.length ++
    " files in the working directory contain changes that were not yet committed into git:\n\n"
    ++ String.intercalate "\n" files ++
    "\n\nto proceed despite this and include the uncommitted changes, pass the `--allow-dirty` flag"

/-- Translation of the inner `git` function of `check_repo_state`. -/
def gitCheck (p : Package) (srcFiles : List FsPath) (repo : Repo) :
    Except GitError (Option String) :=
  let workdir := (repo.workdir).getD []
  let subs := sortedSubRepos repo
  let dirty := (srcFiles.filter (fileDirty repo workdir subs)).map
    (fun f => pathDisplay (relOrSelf p.root f))
  if dirty.isEmpty then
    match repo.headRev with
    | some h => .ok (some h)
    | none => .error .revparseFailed
  else
    .error (.dirtyFiles dirty)

def noManifestMsg (path wd : FsPath) : String :=
  "No (git) Cargo.toml found at `" ++ pathDisplay path ++ "` in workdir `" ++
    pathDisplay wd ++ "`"

/-- Translation of `check_repo_state`.  Repository discovery is an external
input.  The second component collects shell diagnostics as
(is-verbose-only, message) pairs. -/
def checkRepoState (p : Package) (srcFiles : List FsPath) (discovered : Option Repo) :
    Except GitError (Option String) × List (Bool × String) :=
  match discovered with
  | some repo =>
    match repo.workdir with
    | some wd =>
      let path := relOrSelf wd p.manifest_path
      match repo.statusOf path with
      | some status =>
        if status &&& STATUS_IGNORED = 0 then (gitCheck p srcFiles repo, [])
        else (.ok none, [(true, noManifestMsg path wd)])
      | none => (.ok none, [(true, noManifestMsg path wd)])
    | none => (.ok none, [])
  | none =>
    (.ok none, [(true, "No (git) VCS found for `" ++ pathDisplay p.root ++ "`")])

/-- The VCS-info JSON produced at lines 94-100 of the source. -/
def vcsJson (rev : String) : String :=
  "\x7b\n  \"git\": \x7b\n    \"sha1\": \"" ++ rev ++ "\"\n  \x7d\n\x7d\n"

/-- Lines 94-100 of `package`: the repository check runs only when dirtiness is
not tolerated, and its revision hash is rendered as the VCS-info JSON. -/
def computeVcsInfo (allow_dirty : Bool) (pkg : Package) (srcFiles : List FsPath)
    (discovered : Option Repo) : Except GitError (Option String) × List (Bool × String) :=
  if !allow_dirty then
    let r := checkRepoState pkg srcFiles discovered
    (r.1.map (fun o => o.map vcsJson), r.2)
  else
    (.ok none, [])

/- Archive entry list construction (build_ar_list). -/

/-- The relative archive name of the preserved original manifest: the source
appends ".orig" to the displayed relative path, which in components appends
".orig" to the final component. -/
def origName (rel_path : FsPath) : FsPath :=
  rel_path.dropLast ++ [rel_path.getLastD "" ++ ".orig"]

/-- Entries and warnings contributed by a single candidate source file.
`readManifest` is the external manifest parser (`read_manifest`): it returns
`some` for a real (non-virtual) manifest.  The source unwraps the file name of
the relative path; `getLastD ""` stands in for that unwrap. -/
def arEntriesFor (pkg : Package) (readManifest : FsPath → Except String (Option Package))
    (src_file : FsPath) : Except String (List ArchiveFile × List String) :=
  match relUnder pkg.root src_file with
  | none => .error ("path is not under the package root: " ++ pathDisplay src_file)
  | some rel_path =>
    match check_filename rel_path with
    | .error e => .error e
    | .ok warns =>
      let rel_str := pathDisplay rel_path
      let rel_filename := rel_path.getLastD ""
      if rel_filename = "Cargo.toml" then
        if src_file = pkg.manifest_path then
          .ok ([⟨["Cargo.toml.orig"], "Cargo.toml.orig", .onDisk src_file⟩,
                ⟨rel_path, rel_str, .generated (.manifest pkg)⟩], warns)
        else
          match readManifest src_file with
          | .error e => .error e
          | .ok (some new_pkg) =>
            .ok ([⟨origName rel_path, rel_str ++ ".orig", .onDisk src_file⟩,
                  ⟨rel_path, rel_str, .generated (.manifest new_pkg)⟩], warns)
          | .ok none => .ok ([], warns)
      else if rel_filename = "Cargo.lock" then
        .ok ([], warns)
      else if rel_filename = VCS_INFO_FILE then
        .error ("invalid inclusion of reserved file name " ++ VCS_INFO_FILE ++
          " in package source")
      else
        .ok ([⟨rel_path, rel_str, .onDisk src_file⟩], warns)

def processSrcFiles (pkg : Package) (readManifest : FsPath → Except String (Option Package)) :
    List FsPath → Except String (List ArchiveFile × List String)
  | [] => .ok ([], [])
  | f :: fs =>
    match arEntriesFor pkg readManifest f with
    | .error e => .error e
    | .ok (es, ws) =>
      match processSrcFiles pkg readManifest fs with
      | .error e => .error e
      | .ok (es', ws') => .ok (es ++ es', ws ++ ws')

/-- Modelled from the spec: `paths::normalize_path` is not among this
repository's source files; the spec says the license file is "resolved relative
to the package root".  Dot components are dropped and dot-dot components pop
the previous component. -/
def normalizePath (p : FsPath) : FsPath :=
  p.foldl (fun acc c => if c = "." then acc else if c = ".." then acc.dropLast else acc ++ [c]) []

/-- Rust `Path::join`: an absolute right operand (leading empty component in
this model) replaces the left operand. -/
def joinPath (root p : FsPath) : FsPath :=
  if p.headD " " = "" then p else root ++ p

def licenseCollisionWarn (license_file : FsPath) (license_name : String) : String :=
  "license-file `" ++ pathDisplay license_file ++
    "` appears to be a path outside of the package, but there is already a file named `"
    ++ license_name ++ "` in the root of the package. The archived crate will contain the copy in the root of the package. Update the license-file to point to the path relative to the root of the package to remove this warning."

def licenseMissingWarn (license_file : FsPath) : String :=
  "license-file `" ++ pathDisplay license_file ++ "` does not appear to exist."

/-- The license-file block at the end of `build_ar_list`.  `licenseExists` is
the filesystem's answer for the normalized absolute license path. -/
def addLicense (pkg : Package) (licenseExists : Bool) (result : List ArchiveFile) :
    List ArchiveFile × List String :=
  match pkg.metadata.license_file with
  | none => (result, [])
  | some license_path =>
    let abs_license_path := normalizePath (joinPath pkg.root license_path)
    if licenseExists then
      match relUnder pkg.root abs_license_path with
      | some rel_license_path =>
        if result.any (fun ar => ar.rel_path = rel_license_path) then (result, [])
        else
          (result ++ [⟨rel_license_path, pathDisplay rel_license_path,
            .onDisk abs_license_path⟩], [])
      | none =>
        let license_name := license_path.getLastD ""
        if result.any (fun ar => ar.rel_path.getLastD "" = license_name) then
          (result, [licenseCollisionWarn license_path license_name])
        else
          (result ++ [⟨[license_name], license_name, .onDisk abs_license_path⟩], [])
    else
      (result, [licenseMissingWarn license_path])

def EntryLe (a b : ArchiveFile) : Prop := PathLeP a.rel_path b.rel_path

instance : DecidableRel EntryLe := fun _ _ => inferInstanceAs (Decidable (_ = true))

instance : IsTotal ArchiveFile EntryLe := ⟨fun a b => pathLe_total a.rel_path b.rel_path⟩

instance : IsTrans ArchiveFile EntryLe := ⟨fun _ _ _ => pathLe_trans⟩

/-- The conditional generated lock entry appended after the file loop. -/
def lockEntryList (pkg : Package) : List ArchiveFile :=
  if pkg.include_lockfile then
    [⟨["Cargo.lock"], "Cargo.lock", .generated .lockfile⟩]
  else []

/-- The conditional generated VCS-info entry appended after the file loop. -/
def vcsEntryList (vcs_info : Option String) : List ArchiveFile :=
  match vcs_info with
  | some s => [⟨[VCS_INFO_FILE], VCS_INFO_FILE, .generated (.vcsInfo s)⟩]
  | none => []

/-- Translation of `build_ar_list`. -/
def build_ar_list (pkg : Package) (readManifest : FsPath → Except String (Option Package))
    (src_files : List FsPath) (vcs_info : Option String) (licenseExists : Bool) :
    Except String (List ArchiveFile × List String) :=
  match processSrcFiles pkg readManifest src_files with
  | .error e => .error e
  | .ok (base, ws) =>
    let withVcs := base ++ lockEntryList pkg ++ vcsEntryList vcs_info
    let licensed := addLicense pkg licenseExists withVcs
    .ok (List.insertionSort EntryLe licensed.1, ws ++ licensed.2)

/- Fingerprint diff reporting (report_hash_difference). -/

def lookupHash (m : List (String × Nat)) (k : String) : Option Nat :=
  (m.find? (fun e => e.1 = k)).map (fun e => e.2)

/-- Keys present in both maps whose hashes differ, in the iteration order of
`orig` (the loop of the source pushes them in this order). -/
def diffChanged (orig after : List (String × Nat)) : List String :=
  orig.filterMap (fun kv =>
    match lookupHash after kv.1 with
    | some after_value => if kv.2 ≠ after_value then some kv.1 else none
    | none => none)

/-- Keys only in the `orig` map, in its iteration order. -/
def diffRemoved (orig after : List (String × Nat)) : List String :=
  orig.filterMap (fun kv =>
    match lookupHash after kv.1 with
    | some _ => none
    | none => some kv.1)

/-- Keys only in the `after` map, in its iteration order. -/
def diffAdded (orig after : List (String × Nat)) : List String :=
  (after.map (fun kv => kv.1)).filter (fun k => lookupHash orig k = none)

/-- Translation of `report_hash_difference`.  The hash maps are association
lists in iteration order; the one pass of the source that fills both `changed`
and `removed` is split into two traversals that produce the same lists.  The
`assert!` on an empty report is modelled by `none`. -/
def report_hash_difference (orig after : List (String × Nat)) : Option String :=
  let changed := diffChanged orig after
  let removed := diffRemoved orig after
  let added := diffAdded orig after
  let result :=
    (if changed.isEmpty then [] else
      ["Changed: " ++ String.intercalate "\n\t" (List.insertionSort StrLeP changed)]) ++
    (if added.isEmpty then [] else
      ["Added: " ++ String.intercalate "\n\t" (List.insertionSort StrLeP added)]) ++
    (if removed.isEmpty then [] else
      ["Removed: " ++ String.intercalate "\n\t" (List.insertionSort StrLeP removed)])
  if result.isEmpty then none
  else some (String.intercalate "\n" result)

/- Metadata warnings (check_metadata). -/

def optStrEmpty : Option String → Bool
  | none => true
  | some s => s = ""

def optPathEmpty : Option FsPath → Bool
  | none => true
  | some p => pathDisplay p = ""

def missingMetadata (md : ManifestMetadata) : List String :=
  (if optStrEmpty md.description then ["description"] else []) ++
  (if optStrEmpty md.license && optPathEmpty md.license_file then
    ["license", "license-file"] else []) ++
  (if optStrEmpty md.documentation && optStrEmpty md.homepage && optStrEmpty md.repository then
    ["documentation", "homepage", "repository"] else [])

def check_metadata (pkg : Package) : List (Bool × String) :=
  let missing := missingMetadata pkg.metadata
  if missing.isEmpty then []
  else
    let front := String.intercalate ", " missing.dropLast
    let things := (if front = "" then "" else front ++ " or ") ++ missing.getLastD ""
    [(false, "manifest has no " ++ things ++
      ".\nSee https://doc.rust-lang.org/cargo/reference/manifest.html#package-metadata for more info.")]

/- The package pipeline (package). -/

inductive FileBytes where
  | preexisting (id : Nat)
  | empty
  | garbage
  | archive (entries : List ArchiveFile)
deriving DecidableEq

abbrev DirState := List (String × FileBytes)

def dirGet (d : DirState) (n : String) : Option FileBytes :=
  (d.find? (fun e => e.1 = n)).map (fun e => e.2)

def dirSet (d : DirState) (n : String) (v : FileBytes) : DirState :=
  d.filter (fun e => e.1 ≠ n) ++ [(n, v)]

def dirRemove (d : DirState) (n : String) : DirState :=
  d.filter (fun e => e.1 ≠ n)

inductive FsEvent where
  | opened (n : String)
  | truncated (n : String)
  | wroteArchive (n : String)
  | verifiedAgainst (n : String)
  | renamed (src dst : String)
deriving DecidableEq

inductive PkgError where
  | resolveFailed
  | updateFailed
  | vcsError (e : GitError)
  | arListError (msg : String)
  | depError (msg : String)
  | openFailed
  | tarFailed
  | verifyFailed
  | renameFailed
deriving DecidableEq

inductive PkgOutcome where
  | listed (lines : List String)
  | packaged (filename : String)
deriving DecidableEq

structure PackageOpts where
  list : Bool
  check_metadata : Bool
  allow_dirty : Bool
  verify : Bool
deriving DecidableEq

structure PkgEnv where
  lockExists : Bool
  resolveOk : Bool
  updateOk : Bool
  openOk : Bool
  tarOk : Bool
  verifyOk : Bool
  renameOk : Bool
  discovered : Option Repo
  srcFiles : List FsPath
  readManifest : FsPath → Except String (Option Package)
  licenseExists : Bool
  dir0 : DirState

structure PkgResult where
  res : Except PkgError PkgOutcome
  dir : DirState
  events : List FsEvent
  warnings : List (Bool × String)

def crateFilename (pkg : Package) : String := pkg.name ++ "-" ++ pkg.version ++ ".crate"

def tmpCrateName (pkg : Package) : String := "." ++ crateFilename pkg

/-- Translation of `package`: the pipeline over an abstract output directory.
Fallible external steps (initial resolve, path-source update, opening the
scratch file, tar serialization, the verification build, the final rename) are
Boolean oracles in `env`.  `dir` tracks the contents of the output directory
(`target/package`); `events` is the trace of filesystem actions on it.  The
verification scratch directory (the unpacked tree) is outside this model. -/
def packageRun (pkg : Package) (opts : PackageOpts) (env : PkgEnv) : PkgResult :=
  if env.lockExists && !env.resolveOk then ⟨.error .resolveFailed, env.dir0, [], []⟩
  else if !env.updateOk then ⟨.error .updateFailed, env.dir0, [], []⟩
  else
    let w1 := if opts.check_metadata then check_metadata pkg else []
    let w2 := if !pkg.excludePats.isEmpty && !pkg.includePats.isEmpty then
        [(false,
          "both package.include and package.exclude are specified; the exclude list will be ignored")]
      else []
    match computeVcsInfo opts.allow_dirty pkg env.srcFiles env.discovered with
    | (.error e, d) => ⟨.error (.vcsError e), env.dir0, [], w1 ++ w2 ++ d⟩
    | (.ok vcs, d) =>
      match build_ar_list pkg env.readManifest env.srcFiles vcs env.licenseExists with
      | .error m => ⟨.error (.arListError m), env.dir0, [], w1 ++ w2 ++ d⟩
      | .ok (ar_files, w3) =>
        let warns := w1 ++ w2 ++ d ++ w3.map (fun m => (false, m))
        if opts.list then
          ⟨.ok (.listed (ar_files.map (fun a => a.rel_str))), env.dir0, [], warns⟩
        else
          match verify_dependencies pkg with
          | .error m => ⟨.error (.depError m), env.dir0, [], warns⟩
          | .ok _ =>
            let filename := crateFilename pkg
            let tmp := tmpCrateName pkg
            if !env.openOk then ⟨.error .openFailed, env.dir0, [], warns⟩
            else
              let d1 := dirSet env.dir0 tmp .empty
              let ev1 := [.opened tmp, .truncated tmp]
              if !env.tarOk then
                ⟨.error .tarFailed, dirSet d1 tmp .garbage, ev1, warns⟩
              else
                let d2 := dirSet d1 tmp (.archive ar_files)
                let ev2 := ev1 ++ [.wroteArchive tmp]
                if opts.verify && !env.verifyOk then
                  ⟨.error .verifyFailed, d2, ev2 ++ [.verifiedAgainst tmp], warns⟩
                else
                  let ev3 := ev2 ++ (if opts.verify then [.verifiedAgainst tmp] else [])
                  if !env.renameOk then ⟨.error .renameFailed, d2, ev3, warns⟩
                  else
                    ⟨.ok (.packaged filename),
                      dirSet (dirRemove d2 tmp) filename (.archive ar_files),
                      ev3 ++ [.renamed tmp filename], warns⟩

/-- The relative paths contributed to the entry list by one candidate file, as
a pure function of its classification (used to reason about `build_ar_list`). -/
def contribPaths (pkg : Package) (readManifest : FsPath → Except String (Option Package))
    (f : FsPath) : List FsPath :=
  match relUnder pkg.root f with
  | none => []
  | some rel =>
    if rel.getLastD "" = "Cargo.toml" then
      if f = pkg.manifest_path then [["Cargo.toml.orig"], rel]
      else
        match readManifest f with
        | .ok (some _) => [origName rel, rel]
        | _ => []
    else if rel.getLastD "" = "Cargo.lock" then []
    else if rel.getLastD "" = VCS_INFO_FILE then []
    else [rel]

/-- The relative-path effect of the license block, used to reason about
`addLicense` at the level of relative paths. -/
def relAddLicense (pkg : Package) (licenseExists : Bool) (paths : List FsPath) :
    List FsPath :=
  match pkg.metadata.license_file with
  | none => paths
  | some license_path =>
    let abs_license_path := normalizePath (joinPath pkg.root license_path)
    if licenseExists then
      match relUnder pkg.root abs_license_path with
      | some rel_license_path =>
        if paths.any (fun p => p = rel_license_path) then paths
        else paths ++ [rel_license_path]
      | none =>
        let license_name := license_path.getLastD ""
        if paths.any (fun p => p.getLastD "" = license_name) then paths
        else paths ++ [[license_name]]
    else paths

/-
Theorems for the claims, with supporting lemmas.
-/

/-- C7: the filename validator fails on a filename containing one of the
special characters, and for a reserved Windows device name it emits a warning
and returns success. -/
theorem c7_check_filename (file : FsPath) (name : String)
    (hname : file.getLast? = some name) :
    ((∃ c ∈ badChars, name.data.contains c = true) →
      ∃ e, check_filename file = .error e) ∧
    ((∀ c ∈ badChars, name.data.contains c = false) →
      isWindowsReservedPath file = true →
      check_filename file = .ok ["file " ++ pathDisplay file ++
        " is a reserved Windows filename, it will not work on Windows platforms"]) := by
  simp only [check_filename, hname]
  constructor
  · rintro ⟨c, hc, hcon⟩
    cases hfind : badChars.find? (fun c => name.data.contains c) with
    | none =>
      have h2 := List.find?_eq_none.mp hfind c hc
      rw [hcon] at h2
      simp at h2
    | some c2 => exact ⟨_, rfl⟩
  · intro hnone hres
    rw [List.find?_eq_none.mpr (fun c hc => by rw [hnone c hc]; simp), hres]
    simp

theorem c7_check_filename_witness :
    check_filename ["con.txt"] = .ok ["file con.txt is a reserved Windows filename, it will not work on Windows platforms"] ∧
    check_filename ["a:b"] =
      .error "cannot package a filename with a special character `:`: a:b" := by
  refine ⟨(c7_check_filename ["con.txt"] "con.txt" rfl).2 (by decide) (by decide), rfl⟩

/-- C4: with a known primary-repository status, a Cargo.lock candidate is dirty
iff its status is neither ignored nor current; any other candidate is dirty iff
its status is not current. -/
theorem c4_dirty_classification (repo : Repo) (workdir : FsPath)
    (subs : List (FsPath × Repo)) (file : FsPath) (status : Nat)
    (h : repo.statusOf (relOrSelf workdir file) = some status) :
    fileDirty repo workdir subs file = true ↔
      (if (relOrSelf workdir file).getLastD "" = "Cargo.lock"
       then status ≠ STATUS_IGNORED ∧ status ≠ STATUS_CURRENT
       else status ≠ STATUS_CURRENT) := by
  simp only [fileDirty, h]
  by_cases hlock : (relOrSelf workdir file).getLastD "" = "Cargo.lock" <;>
    by_cases hcur : status = STATUS_CURRENT <;>
      simp [hlock, hcur] <;> tauto

theorem c4_dirty_classification_witness :
    fileDirty (.mk (some []) (fun _ => some 16384) none []) [] [] ["Cargo.lock"] = false ∧
    fileDirty (.mk (some []) (fun _ => some 16384) none []) [] [] ["README.md"] = true := by
  constructor
  · have h := c4_dirty_classification (.mk (some []) (fun _ => some 16384) none [])
      [] [] ["Cargo.lock"] 16384 rfl
    rw [Bool.eq_false_iff]
    rw [Ne, h]
    decide
  · have h := c4_dirty_classification (.mk (some []) (fun _ => some 16384) none [])
      [] [] ["README.md"] 16384 rfl
    rw [h]
    decide

/-- C5: a discovered repository in which the manifest is not tracked (status
lookup fails or reports the ignored bit) makes the repository-state check
return success with no revision, with only a verbose diagnostic. -/
theorem c5_untracked_manifest (p : Package) (srcFiles : List FsPath) (repo : Repo)
    (wd : FsPath) (hw : repo.workdir = some wd)
    (h : repo.statusOf (relOrSelf wd p.manifest_path) = none ∨
      ∃ status, repo.statusOf (relOrSelf wd p.manifest_path) = some status ∧
        status &&& STATUS_IGNORED ≠ 0) :
    checkRepoState p srcFiles (some repo) =
      (.ok none, [(true, noManifestMsg (relOrSelf wd p.manifest_path) wd)]) := by
  simp only [checkRepoState, hw]
  rcases h with h | ⟨st, hst, hig⟩
  · simp [h]
  · simp [hst, hig]

theorem c5_untracked_manifest_witness :
    checkRepoState (⟨[], "p", "1", false, ⟨none, none, none, none, none, none⟩, [], [], []⟩ : Package)
      [] (some (.mk (some []) (fun _ => none) none [])) =
      (.ok none, [(true, noManifestMsg ["Cargo.toml"] [])]) :=
  c5_untracked_manifest _ [] _ [] rfl (Or.inl rfl)

/-- C3 counterexample: the dirty-file failure is claimed to list the files
sorted; enumerating candidates b then a, both dirty, yields the unsorted list
["b", "a"]. -/
theorem c3_counterexample :
    gitCheck (⟨[], "p", "1", false, ⟨none, none, none, none, none, none⟩, [], [], []⟩ : Package)
      [["b"], ["a"]] (.mk (some []) (fun _ => some 2) (some "h") []) =
      .error (.dirtyFiles ["b", "a"]) ∧ ¬ List.Sorted StrLeP ["b", "a"] :=
  ⟨rfl, by decide⟩

/-- C3 (amended): the dirty-file failure lists exactly the dirty candidates'
paths relative to the package root, in candidate enumeration order (not
sorted), and with exactly one dirty file it names exactly that file. -/
theorem c3_dirty_listing (p : Package) (srcFiles : List FsPath) (repo : Repo)
    (L : List String)
    (h : gitCheck p srcFiles repo = .error (.dirtyFiles L)) :
    L = (srcFiles.filter (fileDirty repo ((repo.workdir).getD []) (sortedSubRepos repo))).map
        (fun f => pathDisplay (relOrSelf p.root f)) ∧
    L ≠ [] ∧
    (∀ s, s ∈ L ↔ ∃ f ∈ srcFiles,
      fileDirty repo ((repo.workdir).getD []) (sortedSubRepos repo) f = true ∧
      s = pathDisplay (relOrSelf p.root f)) ∧
    (∀ f, srcFiles.filter (fileDirty repo ((repo.workdir).getD []) (sortedSubRepos repo)) = [f] →
      L = [pathDisplay (relOrSelf p.root f)]) := by
  simp only [gitCheck] at h
  split at h
  · cases hh : repo.headRev <;> rw [hh] at h <;> simp at h
  · simp only [Except.error.injEq, GitError.dirtyFiles.injEq] at h
    next hne =>
    subst h
    refine ⟨rfl, ?_, ?_, ?_⟩
    · intro hnil
      rw [hnil] at hne
      simp at hne
    · intro s
      simp only [List.mem_map, List.mem_filter]
      constructor
      · rintro ⟨f, ⟨hf, hd⟩, hs⟩
        exact ⟨f, hf, hd, hs.symm⟩
      · rintro ⟨f, hf, hd, hs⟩
        exact ⟨f, ⟨hf, hd⟩, hs.symm⟩
    · intro f hf
      rw [hf]
      rfl

theorem c3_dirty_listing_witness :
    (["b", "a"] : List String) =
      (([["b"], ["a"]] : List FsPath).filter
        (fileDirty (.mk (some []) (fun _ => some 2) (some "h") []) []
          (sortedSubRepos (.mk (some []) (fun _ => some 2) (some "h") [])))).map
        (fun f => pathDisplay (relOrSelf [] f)) ∧
    (["b", "a"] : List String) ≠ [] := by
  have h := c3_dirty_listing
    (⟨[], "p", "1", false, ⟨none, none, none, none, none, none⟩, [], [], []⟩ : Package)
    [["b"], ["a"]] (.mk (some []) (fun _ => some 2) (some "h") []) ["b", "a"] rfl
  exact ⟨h.1, h.2.1⟩

theorem lookupHash_of_mem {m : List (String × Nat)} {k : String} {v : Nat}
    (hno : (m.map (fun kv => kv.1)).Nodup) (h : (k, v) ∈ m) : lookupHash m k = some v := by
  induction m with
  | nil => simp at h
  | cons kv rest ih =>
    simp only [List.map_cons, List.nodup_cons] at hno
    rcases List.mem_cons.mp h with h | h
    · rw [← h]
      simp [lookupHash]
    · by_cases hk : kv.1 = k
      · exfalso
        exact hno.1 (hk ▸ (List.mem_map.mpr ⟨(k, v), h, rfl⟩ : k ∈ rest.map (fun kv => kv.1)))
      · rw [lookupHash, List.find?_cons_of_neg _ (by simp [hk])]
        exact ih hno.2 h

theorem mem_of_lookupHash {m : List (String × Nat)} {k : String} {v : Nat}
    (h : lookupHash m k = some v) : (k, v) ∈ m := by
  induction m with
  | nil => simp [lookupHash] at h
  | cons kv rest ih =>
    obtain ⟨k2, v2⟩ := kv
    by_cases hk : k2 = k
    · rw [lookupHash, List.find?_cons_of_pos _ (by simp [hk])] at h
      simp only [Option.map_some'] at h
      simp only [Option.some.injEq] at h
      rw [← hk, ← h]
      exact List.mem_cons_self _ _
    · rw [lookupHash, List.find?_cons_of_neg _ (by simp [hk])] at h
      exact List.mem_cons_of_mem _ (ih h)

theorem lookupHash_none {m : List (String × Nat)} {k : String} :
    lookupHash m k = none ↔ ∀ kv ∈ m, kv.1 ≠ k := by
  simp [lookupHash, List.find?_eq_none]

theorem lookupHash_some_of_key {m : List (String × Nat)} {k : String}
    (h : k ∈ m.map (fun kv => kv.1)) : ∃ v, lookupHash m k = some v := by
  rcases List.mem_map.mp h with ⟨kv, hkv, hk⟩
  cases hf : m.find? (fun e => e.1 = k) with
  | none =>
    exfalso
    have h2 := List.find?_eq_none.mp hf kv hkv
    simp [hk] at h2
  | some e => exact ⟨e.2, by simp [lookupHash, hf]⟩

/-- C6: the fingerprint diff partitions paths into Changed, Added, Removed,
omits empty partitions, treats a diff with no differences as a programming
error, and on the documented example reports Changed b and Added c with no
Removed section. -/
theorem c6_report_hash_difference (orig after : List (String × Nat))
    (hno : (orig.map (fun kv => kv.1)).Nodup) :
    (∀ k, k ∈ diffChanged orig after ↔
      ∃ v w, lookupHash orig k = some v ∧ lookupHash after k = some w ∧ v ≠ w) ∧
    (∀ k, k ∈ diffAdded orig after ↔
      (∃ w, lookupHash after k = some w) ∧ lookupHash orig k = none) ∧
    (∀ k, k ∈ diffRemoved orig after ↔
      (∃ v, lookupHash orig k = some v) ∧ lookupHash after k = none) ∧
    ((∀ k, lookupHash orig k = lookupHash after k) →
      report_hash_difference orig after = none) ∧
    report_hash_difference [("a", 1), ("b", 2)] [("a", 1), ("b", 3), ("c", 4)] =
      some "Changed: b\nAdded: c" := by
  refine ⟨?_, ?_, ?_, ?_, rfl⟩
  · intro k
    simp only [diffChanged, List.mem_filterMap]
    constructor
    · rintro ⟨kv, hkv, hf⟩
      cases hl : lookupHash after kv.1 with
      | none => rw [hl] at hf; simp at hf
      | some w =>
        rw [hl] at hf
        by_cases hne : kv.2 = w
        · simp [hne] at hf
        · simp only [hne, ne_eq, not_false_iff, if_true, Option.some.injEq] at hf
          subst hf
          exact ⟨kv.2, w, lookupHash_of_mem hno hkv, hl, hne⟩
    · rintro ⟨v, w, hv, hw, hne⟩
      refine ⟨(k, v), mem_of_lookupHash hv, ?_⟩
      simp [hw, hne]
  · intro k
    simp only [diffAdded, List.mem_filter, List.mem_map]
    constructor
    · rintro ⟨⟨kv, hkv, hk⟩, hnone⟩
      subst hk
      exact ⟨lookupHash_some_of_key (List.mem_map.mpr ⟨kv, hkv, rfl⟩),
        by simpa using hnone⟩
    · rintro ⟨⟨w, hw⟩, hnone⟩
      exact ⟨⟨(k, w), mem_of_lookupHash hw, rfl⟩, by simp [hnone]⟩
  · intro k
    simp only [diffRemoved, List.mem_filterMap]
    constructor
    · rintro ⟨kv, hkv, hf⟩
      cases hl : lookupHash after kv.1 with
      | some w => rw [hl] at hf; simp at hf
      | none =>
        rw [hl] at hf
        simp only [Option.some.injEq] at hf
        subst hf
        exact ⟨⟨kv.2, lookupHash_of_mem hno hkv⟩, hl⟩
    · rintro ⟨⟨v, hv⟩, hnone⟩
      exact ⟨(k, v), mem_of_lookupHash hv, by simp [hnone]⟩
  · intro heq
    have hch : diffChanged orig after = [] := by
      rw [diffChanged, List.filterMap_eq_nil]
      intro kv hkv
      rw [← heq kv.1, lookupHash_of_mem hno hkv]
      simp
    have hrm : diffRemoved orig after = [] := by
      rw [diffRemoved, List.filterMap_eq_nil]
      intro kv hkv
      rw [← heq kv.1, lookupHash_of_mem hno hkv]
    have had : diffAdded orig after = [] := by
      rw [diffAdded, List.filter_eq_nil]
      intro k hk
      rcases lookupHash_some_of_key (by simpa using hk) with ⟨w, hw⟩
      rw [heq k, hw]
      simp
    simp [report_hash_difference, hch, hrm, had]

theorem c6_report_hash_difference_witness :
    report_hash_difference [("a", 1), ("b", 2)] [("a", 1), ("b", 3), ("c", 4)] =
      some "Changed: b\nAdded: c" ∧
    report_hash_difference [("a", 1)] [("a", 1)] = none := by
  have h := c6_report_hash_difference [("a", 1), ("b", 2)] [("a", 1), ("b", 3), ("c", 4)]
    (by decide)
  have h2 := c6_report_hash_difference [("a", 1)] [("a", 1)] (by decide)
  exact ⟨h.2.2.2.2, h2.2.2.2.1 (fun k => rfl)⟩

theorem arEntriesFor_ok {pkg : Package} {rm : FsPath → Except String (Option Package)}
    {f : FsPath} {es : List ArchiveFile} {ws : List String}
    (h : arEntriesFor pkg rm f = .ok (es, ws)) :
    ∃ rel, relUnder pkg.root f = some rel ∧ check_filename rel = .ok ws ∧
      es.map (fun e => e.rel_path) = contribPaths pkg rm f ∧
      ∀ e ∈ es, (∃ p, e.contents = .onDisk p) ∨ ∃ q, e.contents = .generated (.manifest q) := by
  simp only [arEntriesFor] at h
  split at h
  · simp at h
  · rename_i rel hru
    split at h
    · simp at h
    · rename_i warns hcf
      split at h
      · rename_i h1
        split at h
        · rename_i h2
          simp only [Except.ok.injEq, Prod.mk.injEq] at h
          obtain ⟨hes, hws⟩ := h
          subst hws
          refine ⟨rel, hru, hcf, ?_, ?_⟩
          · rw [← hes]
            simp only [contribPaths, hru]
            rw [if_pos h1, if_pos h2]
            rfl
          · intro e he
            rw [← hes] at he
            simp only [List.mem_cons, List.not_mem_nil, or_false] at he
            rcases he with he | he <;> subst he
            · exact Or.inl ⟨f, rfl⟩
            · exact Or.inr ⟨pkg, rfl⟩
        · rename_i h2
          split at h
          · simp at h
          · rename_i q hrm
            simp only [Except.ok.injEq, Prod.mk.injEq] at h
            obtain ⟨hes, hws⟩ := h
            subst hws
            refine ⟨rel, hru, hcf, ?_, ?_⟩
            · rw [← hes]
              simp only [contribPaths, hru]
              rw [if_pos h1, if_neg h2, hrm]
              rfl
            · intro e he
              rw [← hes] at he
              simp only [List.mem_cons, List.not_mem_nil, or_false] at he
              rcases he with he | he <;> subst he
              · exact Or.inl ⟨f, rfl⟩
              · exact Or.inr ⟨q, rfl⟩
          · rename_i hrm
            simp only [Except.ok.injEq, Prod.mk.injEq] at h
            obtain ⟨hes, hws⟩ := h
            subst hws
            refine ⟨rel, hru, hcf, ?_, ?_⟩
            · rw [← hes]
              simp only [contribPaths, hru]
              rw [if_pos h1, if_neg h2, hrm]
              rfl
            · intro e he
              rw [← hes] at he
              simp at he
      · rename_i h1
        split at h
        · rename_i h3
          simp only [Except.ok.injEq, Prod.mk.injEq] at h
          obtain ⟨hes, hws⟩ := h
          subst hws
          refine ⟨rel, hru, hcf, ?_, ?_⟩
          · rw [← hes]
            simp only [contribPaths, hru]
            rw [if_neg h1, if_pos h3]
            rfl
          · intro e he
            rw [← hes] at he
            simp at he
        · rename_i h3
          split at h
          · simp at h
          · rename_i h4
            simp only [Except.ok.injEq, Prod.mk.injEq] at h
            obtain ⟨hes, hws⟩ := h
            subst hws
            refine ⟨rel, hru, hcf, ?_, ?_⟩
            · rw [← hes]
              simp only [contribPaths, hru]
              rw [if_neg h1, if_neg h3, if_neg h4]
              rfl
            · intro e he
              rw [← hes] at he
              simp only [List.mem_cons, List.not_mem_nil, or_false] at he
              subst he
              exact Or.inl ⟨f, rfl⟩

theorem processSrcFiles_ok {pkg : Package} {rm : FsPath → Except String (Option Package)}
    {fs : List FsPath} {es : List ArchiveFile} {ws : List String}
    (h : processSrcFiles pkg rm fs = .ok (es, ws)) :
    es.map (fun e => e.rel_path) = fs.flatMap (contribPaths pkg rm) ∧
    ∀ e ∈ es, (∃ p, e.contents = .onDisk p) ∨ ∃ q, e.contents = .generated (.manifest q) := by
  induction fs generalizing es ws with
  | nil =>
    simp only [processSrcFiles, Except.ok.injEq, Prod.mk.injEq] at h
    obtain ⟨hes, _⟩ := h
    subst hes
    simp
  | cons f fs ih =>
    simp only [processSrcFiles] at h
    cases ha : arEntriesFor pkg rm f with
    | error e => rw [ha] at h; simp at h
    | ok p1 =>
      obtain ⟨es1, ws1⟩ := p1
      rw [ha] at h
      cases hp : processSrcFiles pkg rm fs with
      | error e => rw [hp] at h; simp at h
      | ok p2 =>
        obtain ⟨es2, ws2⟩ := p2
        rw [hp] at h
        simp only [Except.ok.injEq, Prod.mk.injEq] at h
        obtain ⟨hes, _⟩ := h
        subst hes
        obtain ⟨rel, hru, hcf, hmap1, hsh1⟩ := arEntriesFor_ok ha
        obtain ⟨hmap2, hsh2⟩ := ih hp
        constructor
        · rw [List.map_append, hmap1, hmap2, List.flatMap_cons]
        · intro e he
          rcases List.mem_append.mp he with he | he
          · exact hsh1 e he
          · exact hsh2 e he

theorem addLicense_cases (pkg : Package) (lic : Bool) (result : List ArchiveFile) :
    (addLicense pkg lic result).1 = result ∨
    ∃ e, (addLicense pkg lic result).1 = result ++ [e] ∧ ∃ p, e.contents = .onDisk p := by
  simp only [addLicense]
  split
  · exact Or.inl rfl
  · split
    · split
      · split
        · exact Or.inl rfl
        · exact Or.inr ⟨_, rfl, _, rfl⟩
      · split
        · exact Or.inl rfl
        · exact Or.inr ⟨_, rfl, _, rfl⟩
    · exact Or.inl rfl

theorem addLicense_mem {pkg : Package} {lic : Bool} {result : List ArchiveFile}
    {e : ArchiveFile} (h : e ∈ result) : e ∈ (addLicense pkg lic result).1 := by
  rcases addLicense_cases pkg lic result with hc | ⟨e2, hc, _⟩ <;> rw [hc]
  · exact h
  · exact List.mem_append_left _ h

theorem build_ar_list_ok {pkg : Package} {rm : FsPath → Except String (Option Package)}
    {src : List FsPath} {vcs : Option String} {lic : Bool} {l : List ArchiveFile}
    {w : List String} (h : build_ar_list pkg rm src vcs lic = .ok (l, w)) :
    ∃ base ws1, processSrcFiles pkg rm src = .ok (base, ws1) ∧
      l = List.insertionSort EntryLe
        ((addLicense pkg lic (base ++ lockEntryList pkg ++ vcsEntryList vcs)).1) := by
  simp only [build_ar_list] at h
  split at h
  · simp at h
  · rename_i base ws1 hp
    simp only [Except.ok.injEq, Prod.mk.injEq] at h
    exact ⟨base, ws1, hp, h.1.symm⟩

/-- C9: with allow-dirty set, the repository check is skipped (the VCS-info
input is computed as none with no diagnostics, independently of any repository)
and the entry list contains no generated VCS-info entry. -/
theorem c9_allow_dirty (pkg : Package) (srcFiles : List FsPath)
    (d1 d2 : Option Repo) (rm : FsPath → Except String (Option Package)) (lic : Bool) :
    computeVcsInfo true pkg srcFiles d1 = (.ok none, []) ∧
    computeVcsInfo true pkg srcFiles d1 = computeVcsInfo true pkg srcFiles d2 ∧
    ∀ l w, build_ar_list pkg rm srcFiles none lic = .ok (l, w) →
      ∀ e ∈ l, ∀ s, e.contents ≠ .generated (.vcsInfo s) := by
  refine ⟨rfl, rfl, ?_⟩
  intro l w h e he s hs
  obtain ⟨base, ws1, hp, hl⟩ := build_ar_list_ok h
  rw [hl] at he
  have he2 := (List.perm_insertionSort EntryLe _).mem_iff.mp he
  have hmain : e ∈ base ++ lockEntryList pkg ++ vcsEntryList none → False := by
    intro he3
    rcases List.mem_append.mp he3 with he4 | he4
    · rcases List.mem_append.mp he4 with he5 | he5
      · rcases (processSrcFiles_ok hp).2 e he5 with ⟨p, hpp⟩ | ⟨q, hq⟩
        · rw [hs] at hpp
          simp at hpp
        · rw [hs] at hq
          simp at hq
      · simp only [lockEntryList] at he5
        by_cases hil : pkg.include_lockfile
        · rw [if_pos hil] at he5
          simp only [List.mem_singleton] at he5
          rw [he5] at hs
          simp at hs
        · rw [if_neg hil] at he5
          simp at he5
    · simp [vcsEntryList] at he4
  rcases addLicense_cases pkg lic _ with hc | ⟨e2, hc, p2, hp2⟩ <;> rw [hc] at he2
  · exact hmain he2
  · rcases List.mem_append.mp he2 with he3 | he3
    · exact hmain he3
    · simp only [List.mem_singleton] at he3
      rw [he3] at hs
      rw [hs] at hp2
      simp at hp2

/-- C8: for a clean repository (no dirty candidate), a tracked manifest and
dirtiness not tolerated, the VCS info is exactly the documented JSON carrying
HEAD's hash and the entry list contains the generated VCS-info entry. -/
theorem c8_vcs_info_entry (pkg : Package) (srcFiles : List FsPath) (repo : Repo)
    (wd : FsPath) (st : Nat) (rev : String)
    (rm : FsPath → Except String (Option Package)) (lic : Bool)
    (hw : repo.workdir = some wd)
    (hst : repo.statusOf (relOrSelf wd pkg.manifest_path) = some st)
    (hni : st &&& STATUS_IGNORED = 0)
    (hclean : ∀ f ∈ srcFiles, fileDirty repo wd (sortedSubRepos repo) f = false)
    (hhead : repo.headRev = some rev) :
    computeVcsInfo false pkg srcFiles (some repo) = (.ok (some (vcsJson rev)), []) ∧
    ∀ l w, build_ar_list pkg rm srcFiles (some (vcsJson rev)) lic = .ok (l, w) →
      (⟨[VCS_INFO_FILE], VCS_INFO_FILE, .generated (.vcsInfo (vcsJson rev))⟩ : ArchiveFile) ∈ l := by
  constructor
  · have hgit : gitCheck pkg srcFiles repo = .ok (some rev) := by
      simp only [gitCheck, hw, Option.getD_some]
      rw [List.filter_eq_nil.mpr (fun f hf => by rw [hclean f hf]; simp)]
      simp [hhead]
    have hcrs : checkRepoState pkg srcFiles (some repo) = (.ok (some rev), []) := by
      simp only [checkRepoState, hw, hst]
      rw [if_pos hni, hgit]
    simp [computeVcsInfo, hcrs, Except.map]
  · intro l w h
    obtain ⟨base, ws1, hp, hl⟩ := build_ar_list_ok h
    rw [hl]
    refine (List.perm_insertionSort EntryLe _).mem_iff.mpr (addLicense_mem ?_)
    exact List.mem_append_right _ (by simp [vcsEntryList])

theorem c8_vcs_info_entry_witness :
    computeVcsInfo false
      (⟨[], "p", "1", false, ⟨none, none, none, none, none, none⟩, [], [], []⟩ : Package)
      [] (some (.mk (some []) (fun _ => some 0) (some "abc") [])) =
      (.ok (some (vcsJson "abc")), []) ∧
    (⟨[VCS_INFO_FILE], VCS_INFO_FILE, .generated (.vcsInfo (vcsJson "abc"))⟩ : ArchiveFile) ∈
      [(⟨[VCS_INFO_FILE], VCS_INFO_FILE, .generated (.vcsInfo (vcsJson "abc"))⟩ : ArchiveFile)] := by
  have h := c8_vcs_info_entry
    (⟨[], "p", "1", false, ⟨none, none, none, none, none, none⟩, [], [], []⟩ : Package)
    [] (.mk (some []) (fun _ => some 0) (some "abc") []) [] 0 "abc"
    (fun _ => .ok none) false rfl rfl rfl (by simp) rfl
  exact ⟨h.1, h.2 _ [] rfl⟩

theorem c9_allow_dirty_witness :
    computeVcsInfo true
      (⟨["r"], "p", "1", false, ⟨none, none, none, none, none, none⟩, [], [], []⟩ : Package)
      [["r", "main.rs"]] (some (.mk (some []) (fun _ => some 2) none [])) = (.ok none, []) ∧
    (⟨["main.rs"], "main.rs", .onDisk ["r", "main.rs"]⟩ : ArchiveFile).contents ≠
      .generated (.vcsInfo "s") := by
  have h := c9_allow_dirty
    (⟨["r"], "p", "1", false, ⟨none, none, none, none, none, none⟩, [], [], []⟩ : Package)
    [["r", "main.rs"]] (some (.mk (some []) (fun _ => some 2) none []))
    (some (.mk (some []) (fun _ => some 0) none [])) (fun _ => .ok none) false
  refine ⟨h.1, ?_⟩
  exact h.2.2 [⟨["main.rs"], "main.rs", .onDisk ["r", "main.rs"]⟩] [] rfl
    ⟨["main.rs"], "main.rs", .onDisk ["r", "main.rs"]⟩ (by simp) "s"

/-- C10: in list-only mode the pipeline returns right after printing the entry
list, before the path-dependency version check; a transitive path dependency
without a version requirement is therefore harmless in list mode but fatal
when an archive is produced. -/
theorem c10_list_mode (pkg : Package) (opts : PackageOpts) (env : PkgEnv)
    (d : Dependency) (vcs : Option String) (diags : List (Bool × String))
    (l : List ArchiveFile) (w : List String)
    (hd : d ∈ pkg.dependencies) (hdp : d.is_path = true)
    (hdr : d.specified_req = false) (hdt : d.is_transitive = true)
    (h1 : (env.lockExists && !env.resolveOk) = false)
    (h2 : env.updateOk = true)
    (h3 : computeVcsInfo opts.allow_dirty pkg env.srcFiles env.discovered = (.ok vcs, diags))
    (h4 : build_ar_list pkg env.readManifest env.srcFiles vcs env.licenseExists = .ok (l, w)) :
    (opts.list = true →
      (packageRun pkg opts env).res = .ok (.listed (l.map (fun a => a.rel_str))) ∧
      (packageRun pkg opts env).dir = env.dir0 ∧
      (packageRun pkg opts env).events = []) ∧
    (opts.list = false → ∃ m, (packageRun pkg opts env).res = .error (.depError m)) := by
  have hvd : ∃ m, verify_dependencies pkg = .error m := by
    unfold verify_dependencies
    cases hf : pkg.dependencies.find?
        (fun d => d.is_path && !d.specified_req && d.is_transitive) with
    | none =>
      have h5 := List.find?_eq_none.mp hf d hd
      simp [hdp, hdr, hdt] at h5
    | some d2 => exact ⟨_, rfl⟩
  obtain ⟨m, hm⟩ := hvd
  constructor
  · intro hl
    simp [packageRun, h1, h2, h3, h4, hl]
  · intro hl
    refine ⟨m, ?_⟩
    simp [packageRun, h1, h2, h3, h4, hl, hm]

theorem c10_list_mode_witness :
    (packageRun
      (⟨[], "p", "1", false, ⟨none, none, none, none, none, none⟩, [], [],
        [⟨"x", true, false, true⟩]⟩ : Package)
      (⟨true, false, true, false⟩ : PackageOpts)
      (⟨false, true, true, true, true, true, true, none, [], fun _ => .ok none, false,
        []⟩ : PkgEnv)).res = .ok (.listed []) ∧
    (packageRun
      (⟨[], "p", "1", false, ⟨none, none, none, none, none, none⟩, [], [],
        [⟨"x", true, false, true⟩]⟩ : Package)
      (⟨false, false, true, false⟩ : PackageOpts)
      (⟨false, true, true, true, true, true, true, none, [], fun _ => .ok none, false,
        []⟩ : PkgEnv)).res =
      .error (.depError
        "all path dependencies must have a version specified when packaging.\ndependency `x` does not specify a version.") := by
  have h := c10_list_mode
    (⟨[], "p", "1", false, ⟨none, none, none, none, none, none⟩, [], [],
      [⟨"x", true, false, true⟩]⟩ : Package)
    (⟨true, false, true, false⟩ : PackageOpts)
    (⟨false, true, true, true, true, true, true, none, [], fun _ => .ok none, false,
      []⟩ : PkgEnv)
    ⟨"x", true, false, true⟩ none [] [] [] (by simp) rfl rfl rfl rfl rfl rfl rfl
  exact ⟨(h.1 rfl).1, rfl⟩

theorem findKey_filter (d : DirState) {m n : String} (h : m ≠ n) :
    (d.filter (fun e => e.1 ≠ n)).find? (fun e => e.1 = m) =
      d.find? (fun e => e.1 = m) := by
  induction d with
  | nil => rfl
  | cons kv rest ih =>
    by_cases hkm : kv.1 = m
    · rw [List.filter_cons, if_pos (by simp [hkm, h]),
        List.find?_cons_of_pos _ (by simp [hkm]), List.find?_cons_of_pos _ (by simp [hkm])]
    · by_cases hkn : kv.1 = n
      · rw [List.filter_cons, if_neg (by simp [hkn]), ih,
          List.find?_cons_of_neg _ (by simp [hkm])]
      · rw [List.filter_cons, if_pos (by simp [hkn]),
          List.find?_cons_of_neg _ (by simp [hkm]), ih,
          List.find?_cons_of_neg _ (by simp [hkm])]

theorem dirGet_dirSet_self (d : DirState) (n : String) (v : FileBytes) :
    dirGet (dirSet d n v) n = some v := by
  rw [dirSet, dirGet, List.find?_append]
  have h1 : (d.filter (fun e => e.1 ≠ n)).find? (fun e => e.1 = n) = none :=
    List.find?_eq_none.mpr (fun e he => by
      have h2 := (List.mem_filter.mp he).2
      simp at h2 ⊢
      exact h2)
  rw [h1]
  simp [List.find?]

theorem dirGet_dirSet_ne (d : DirState) {m n : String} (h : m ≠ n) (v : FileBytes) :
    dirGet (dirSet d n v) m = dirGet d m := by
  rw [dirSet, dirGet, List.find?_append]
  have h1 : ([(n, v)] : DirState).find? (fun e => e.1 = m) = none := by
    simp [List.find?, Ne.symm h]
  rw [h1, findKey_filter d h, Option.or_none]
  rfl

/-- C2: the archive is written to a hidden dot-prefixed temporary name in the
output directory, verification (when enabled) reads that temporary file, the
public final name is written only by the final successful rename, and on any
failure the final name's directory entry is untouched with no rename event. -/
theorem c2_atomic_rename (pkg : Package) (opts : PackageOpts) (env : PkgEnv)
    (R : PkgResult) (hR : packageRun pkg opts env = R) :
    tmpCrateName pkg = "." ++ crateFilename pkg ∧
    tmpCrateName pkg ≠ crateFilename pkg ∧
    (R.res.isOk = false →
      dirGet R.dir (crateFilename pkg) = dirGet env.dir0 (crateFilename pkg) ∧
      ∀ a b, FsEvent.renamed a b ∉ R.events) ∧
    (∀ f, R.res = .ok (.packaged f) →
      f = crateFilename pkg ∧
      (∃ ar, dirGet R.dir (crateFilename pkg) = some (.archive ar)) ∧
      R.events.getLast? = some (.renamed (tmpCrateName pkg) (crateFilename pkg))) ∧
    (∀ n, FsEvent.verifiedAgainst n ∈ R.events → n = tmpCrateName pkg) ∧
    (opts.verify = true → ∀ f, R.res = .ok (.packaged f) →
      FsEvent.verifiedAgainst (tmpCrateName pkg) ∈ R.events) ∧
    (∀ n, (FsEvent.opened n ∈ R.events ∨ FsEvent.truncated n ∈ R.events ∨
           FsEvent.wroteArchive n ∈ R.events) →
      n = tmpCrateName pkg) := by
  have hne : tmpCrateName pkg ≠ crateFilename pkg := by
    rw [tmpCrateName]
    intro hcontra
    have h2 := congrArg String.length hcontra
    rw [String.length_append] at h2
    have h3 : (".").length = 1 := rfl
    omega
  refine ⟨rfl, hne, ?_⟩
  unfold packageRun at hR
  dsimp only at hR
  split at hR
  · subst hR
    exact ⟨fun _ => ⟨rfl, by simp⟩, fun f hf => by simp at hf, fun n hn => by simp at hn,
      fun hv f hf => by simp at hf, fun n hn => by simp at hn⟩
  · split at hR
    · subst hR
      exact ⟨fun _ => ⟨rfl, by simp⟩, fun f hf => by simp at hf, fun n hn => by simp at hn,
        fun hv f hf => by simp at hf, fun n hn => by simp at hn⟩
    · split at hR
      · subst hR
        exact ⟨fun _ => ⟨rfl, by simp⟩, fun f hf => by simp at hf, fun n hn => by simp at hn,
          fun hv f hf => by simp at hf, fun n hn => by simp at hn⟩
      · split at hR
        · subst hR
          exact ⟨fun _ => ⟨rfl, by simp⟩, fun f hf => by simp at hf, fun n hn => by simp at hn,
            fun hv f hf => by simp at hf, fun n hn => by simp at hn⟩
        · split at hR
          · subst hR
            exact ⟨fun _ => ⟨rfl, by simp⟩, fun f hf => by simp at hf, fun n hn => by simp at hn,
              fun hv f hf => by simp at hf, fun n hn => by simp at hn⟩
          · split at hR
            · subst hR
              exact ⟨fun _ => ⟨rfl, by simp⟩, fun f hf => by simp at hf,
                fun n hn => by simp at hn, fun hv f hf => by simp at hf,
                fun n hn => by simp at hn⟩
            · split at hR
              · subst hR
                exact ⟨fun _ => ⟨rfl, by simp⟩, fun f hf => by simp at hf,
                  fun n hn => by simp at hn, fun hv f hf => by simp at hf,
                  fun n hn => by simp at hn⟩
              · split at hR
                · -- tar failure: the temp file holds garbage, the final name is untouched
                  subst hR
                  refine ⟨fun _ => ⟨?_, by simp⟩, fun f hf => by simp at hf,
                    fun n hn => by simp at hn, fun hv f hf => by simp at hf,
                    fun n hn => ?_⟩
                  · rw [dirGet_dirSet_ne _ (Ne.symm hne), dirGet_dirSet_ne _ (Ne.symm hne)]
                  · rcases hn with hn | hn | hn <;> simp at hn <;> exact hn
                · split at hR
                  · -- verification failure against the temp file
                    subst hR
                    refine ⟨fun _ => ⟨?_, by simp⟩, fun f hf => by simp at hf,
                      fun n hn => ?_, fun hv f hf => by simp at hf, fun n hn => ?_⟩
                    · rw [dirGet_dirSet_ne _ (Ne.symm hne), dirGet_dirSet_ne _ (Ne.symm hne)]
                    · simp at hn
                      exact hn
                    · rcases hn with hn | hn | hn <;> simp at hn <;> exact hn
                  · split at hR
                    · -- rename failure: final name still untouched
                      subst hR
                      refine ⟨fun _ => ⟨?_, by simp⟩, fun f hf => by simp at hf,
                        fun n hn => ?_, fun hv f hf => by simp at hf, fun n hn => ?_⟩
                      · rw [dirGet_dirSet_ne _ (Ne.symm hne), dirGet_dirSet_ne _ (Ne.symm hne)]
                      · by_cases hv : opts.verify <;> simp [hv] at hn <;> exact hn
                      · by_cases hv : opts.verify <;>
                          rcases hn with hn | hn | hn <;> simp [hv] at hn <;> exact hn
                    · -- success: the rename is the last event and installs the archive
                      subst hR
                      refine ⟨fun hok => by simp [Except.isOk, Except.toBool] at hok, fun f hf => ?_,
                        fun n hn => ?_, fun hv f hf => ?_, fun n hn => ?_⟩
                      · simp only [Except.ok.injEq, PkgOutcome.packaged.injEq] at hf
                        refine ⟨hf.symm, ⟨_, dirGet_dirSet_self _ _ _⟩, ?_⟩
                        by_cases hv : opts.verify <;> simp only [hv] <;> rfl
                      · by_cases hv : opts.verify <;> simp [hv] at hn <;> exact hn
                      · simp [hv]
                      · by_cases hv : opts.verify <;>
                          rcases hn with hn | hn | hn <;> simp [hv] at hn <;> exact hn

theorem c2_atomic_rename_witness :
    tmpCrateName (⟨[], "p", "1", false, ⟨none, none, none, none, none, none⟩, [], [], []⟩ : Package) =
      "." ++ crateFilename (⟨[], "p", "1", false, ⟨none, none, none, none, none, none⟩, [], [], []⟩ : Package) ∧
    (packageRun (⟨[], "p", "1", false, ⟨none, none, none, none, none, none⟩, [], [], []⟩ : Package)
      (⟨false, false, true, true⟩ : PackageOpts)
      (⟨false, true, true, true, true, true, true, none, [], fun _ => .ok none, false,
        [("p-1.crate", .preexisting 7)]⟩ : PkgEnv)).events.getLast? =
      some (.renamed
        (tmpCrateName (⟨[], "p", "1", false, ⟨none, none, none, none, none, none⟩, [], [], []⟩ : Package))
        (crateFilename (⟨[], "p", "1", false, ⟨none, none, none, none, none, none⟩, [], [], []⟩ : Package))) ∧
    dirGet (packageRun (⟨[], "p", "1", false, ⟨none, none, none, none, none, none⟩, [], [], []⟩ : Package)
      (⟨false, false, true, true⟩ : PackageOpts)
      (⟨false, true, true, true, true, true, true, none, [], fun _ => .ok none, false,
        [("p-1.crate", .preexisting 7)]⟩ : PkgEnv)).dir
      (crateFilename (⟨[], "p", "1", false, ⟨none, none, none, none, none, none⟩, [], [], []⟩ : Package)) =
      some (.archive []) := by
  have h := c2_atomic_rename
    (⟨[], "p", "1", false, ⟨none, none, none, none, none, none⟩, [], [], []⟩ : Package)
    (⟨false, false, true, true⟩ : PackageOpts)
    (⟨false, true, true, true, true, true, true, none, [], fun _ => .ok none, false,
      [("p-1.crate", .preexisting 7)]⟩ : PkgEnv)
    (packageRun (⟨[], "p", "1", false, ⟨none, none, none, none, none, none⟩, [], [], []⟩ : Package)
      (⟨false, false, true, true⟩ : PackageOpts)
      (⟨false, true, true, true, true, true, true, none, [], fun _ => .ok none, false,
        [("p-1.crate", .preexisting 7)]⟩ : PkgEnv)) rfl
  have h2 := h.2.2.2.1 "p-1.crate" rfl
  exact ⟨h.1, h2.2.2, rfl⟩

/-- C1 counterexample: a candidate file named Cargo.toml.orig collides with the
generated preserved-original manifest entry, so the entry list repeats the
relative path Cargo.toml.orig. -/
theorem c1_counterexample :
    (build_ar_list
      (⟨["r"], "p", "1", false, ⟨none, none, none, none, none, none⟩, [], [], []⟩ : Package)
      (fun _ => .ok none) [["r", "Cargo.toml"], ["r", "Cargo.toml.orig"]] none
      false).toOption.map (fun p => p.1.map (fun e => e.rel_path)) =
      some [["Cargo.toml"], ["Cargo.toml.orig"], ["Cargo.toml.orig"]] ∧
    ¬ ([["Cargo.toml"], ["Cargo.toml.orig"], ["Cargo.toml.orig"]] : List FsPath).Nodup :=
  ⟨rfl, by decide⟩

theorem getLastD_concat {α : Type} (l : List α) (a d : α) : (l ++ [a]).getLastD d = a := by
  induction l generalizing d with
  | nil => rfl
  | cons x xs ih => rw [List.cons_append, List.getLastD_cons, ih]

theorem strOrig_ne_self (s : String) : s ++ ".orig" ≠ s := by
  intro h
  have h2 := congrArg String.length h
  rw [String.length_append] at h2
  have h3 : (".orig").length = 5 := rfl
  omega

theorem append_orig_ne {s t : String} (ht : t.data.getLast? ≠ some 'g') :
    s ++ ".orig" ≠ t := by
  intro h
  apply ht
  rw [← h, String.data_append, List.getLast?_append]
  rfl

theorem strOrig_inj {s t : String} (h : s ++ ".orig" = t ++ ".orig") : s = t := by
  have h2 := congrArg String.data h
  rw [String.data_append, String.data_append] at h2
  exact String.ext (List.append_cancel_right h2)

theorem exists_concat_of_ne_nil {α : Type} {l : List α} (h : l ≠ []) :
    ∃ l2 a, l = l2 ++ [a] := by
  cases hr : l.reverse with
  | nil =>
    exfalso
    exact h (by simpa using congrArg List.reverse hr)
  | cons a t =>
    refine ⟨t.reverse, a, ?_⟩
    have h2 := congrArg List.reverse hr
    rw [List.reverse_reverse] at h2
    rw [h2, List.reverse_cons]

theorem concat_inj {α : Type} {l1 l2 : List α} {a b : α} (h : l1 ++ [a] = l2 ++ [b]) :
    l1 = l2 ∧ a = b := by
  have h2 := congrArg List.reverse h
  rw [List.reverse_append, List.reverse_append] at h2
  simp only [List.reverse_cons, List.reverse_nil, List.nil_append, List.cons_append] at h2
  have h3 := List.cons.inj h2
  exact ⟨by simpa using congrArg List.reverse h3.2, h3.1⟩

theorem origName_ne_self {rel : FsPath} (h : rel ≠ []) : origName rel ≠ rel := by
  intro he
  obtain ⟨l2, a, hl⟩ := exists_concat_of_ne_nil h
  subst hl
  rw [origName, List.dropLast_concat, getLastD_concat] at he
  exact strOrig_ne_self a (concat_inj he).2

theorem origName_inj {r1 r2 : FsPath} (h1 : r1 ≠ []) (h2 : r2 ≠ [])
    (h : origName r1 = origName r2) : r1 = r2 := by
  obtain ⟨l1, a1, hl1⟩ := exists_concat_of_ne_nil h1
  obtain ⟨l2, a2, hl2⟩ := exists_concat_of_ne_nil h2
  subst hl1
  subst hl2
  rw [origName, origName, List.dropLast_concat, List.dropLast_concat,
    getLastD_concat, getLastD_concat] at h
  obtain ⟨hl, ha⟩ := concat_inj h
  rw [hl, strOrig_inj ha]

theorem getLastD_origName (rel : FsPath) :
    (origName rel).getLastD "" = rel.getLastD "" ++ ".orig" :=
  getLastD_concat _ _ _

theorem leadsWith_append (p q : FsPath) : leadsWith p (p ++ q) = true := by
  induction p with
  | nil => rfl
  | cons a as ih => simp [leadsWith, ih]

theorem relUnder_append (p q : FsPath) : relUnder p (p ++ q) = some q := by
  rw [relUnder, if_pos (leadsWith_append p q), List.drop_left]

theorem relUnder_some {b p r : FsPath} (h : relUnder b p = some r) :
    r = p.drop b.length := by
  rw [relUnder] at h
  split_ifs at h
  exact (Option.some.injEq _ _ ▸ h).symm

theorem contribPaths_shape {pkg : Package} {rm : FsPath → Except String (Option Package)}
    {f q : FsPath} (hq : q ∈ contribPaths pkg rm f) :
    ∃ rel, relUnder pkg.root f = some rel ∧ (q = rel ∨ q = origName rel) := by
  unfold contribPaths at hq
  split at hq
  · simp at hq
  · rename_i rel hru
    refine ⟨rel, hru, ?_⟩
    split at hq
    · rename_i h1
      split at hq
      · rename_i h2
        have hrel : rel = ["Cargo.toml"] := by
          rw [h2, Package.manifest_path, relUnder_append] at hru
          exact (Option.some.injEq _ _ ▸ hru).symm
        simp only [List.mem_cons, List.not_mem_nil, or_false] at hq
        rcases hq with hq | hq
        · right
          rw [hq, hrel]
          rfl
        · left
          exact hq
      · split at hq
        · simp only [List.mem_cons, List.not_mem_nil, or_false] at hq
          rcases hq with hq | hq
          · right
            exact hq
          · left
            exact hq
        · simp at hq
    · split at hq
      · simp at hq
      · split at hq
        · simp at hq
        · simp only [List.mem_cons, List.not_mem_nil, or_false] at hq
          left
          exact hq

theorem contribPaths_last {pkg : Package} {rm : FsPath → Except String (Option Package)}
    {f q : FsPath} (hq : q ∈ contribPaths pkg rm f) :
    q.getLastD "" ≠ "Cargo.lock" ∧ q.getLastD "" ≠ VCS_INFO_FILE := by
  unfold contribPaths at hq
  split at hq
  · simp at hq
  · rename_i rel hru
    split at hq
    · rename_i h1
      have hct : ∀ x : FsPath, x = rel →
          x.getLastD "" ≠ "Cargo.lock" ∧ x.getLastD "" ≠ VCS_INFO_FILE := by
        rintro x rfl
        rw [h1]
        exact ⟨by decide, by decide⟩
      have hor : ∀ x : FsPath, x = origName rel →
          x.getLastD "" ≠ "Cargo.lock" ∧ x.getLastD "" ≠ VCS_INFO_FILE := by
        rintro x rfl
        rw [getLastD_origName]
        exact ⟨append_orig_ne (by decide), append_orig_ne (by decide)⟩
      split at hq
      · rename_i h2
        have hrel : rel = ["Cargo.toml"] := by
          rw [h2, Package.manifest_path, relUnder_append] at hru
          exact (Option.some.injEq _ _ ▸ hru).symm
        simp only [List.mem_cons, List.not_mem_nil, or_false] at hq
        rcases hq with hq | hq
        · rw [hq]
          exact ⟨by decide, by decide⟩
        · exact hct q hq
      · split at hq
        · simp only [List.mem_cons, List.not_mem_nil, or_false] at hq
          rcases hq with hq | hq
          · exact hor q hq
          · exact hct q hq
        · simp at hq
    · split at hq
      · simp at hq
      · split at hq
        · simp at hq
        · rename_i h1 h3 h4
          simp only [List.mem_cons, List.not_mem_nil, or_false] at hq
          subst hq
          exact ⟨h3, h4⟩

theorem contribPaths_nodup {pkg : Package} {rm : FsPath → Except String (Option Package)}
    {f : FsPath} (hne : f.drop pkg.root.length ≠ []) :
    (contribPaths pkg rm f).Nodup := by
  unfold contribPaths
  split
  · exact List.nodup_nil
  · rename_i rel hru
    have hrel : rel ≠ [] := by
      rw [relUnder_some hru]
      exact hne
    split
    · split
      · rename_i h1 h2
        have hrel2 : rel = ["Cargo.toml"] := by
          rw [h2, Package.manifest_path, relUnder_append] at hru
          exact (Option.some.injEq _ _ ▸ hru).symm
        have : (["Cargo.toml.orig"] : FsPath) = origName rel := by
          rw [hrel2]
          rfl
        rw [this]
        simp [origName_ne_self hrel]
      · split
        · simp [origName_ne_self hrel]
        · exact List.nodup_nil
    · split
      · exact List.nodup_nil
      · split
        · exact List.nodup_nil
        · simp

theorem flatMap_contrib_nodup (pkg : Package) (rm : FsPath → Except String (Option Package))
    (srcFiles : List FsPath)
    (hroot : ∀ f ∈ srcFiles, leadsWith pkg.root f = true ∧ f.drop pkg.root.length ≠ [])
    (hnd : (srcFiles.map (fun f => f.drop pkg.root.length)).Nodup)
    (horig : ∀ f ∈ srcFiles, ∀ g ∈ srcFiles,
      g.drop pkg.root.length ≠ origName (f.drop pkg.root.length)) :
    (srcFiles.flatMap (contribPaths pkg rm)).Nodup := by
  induction srcFiles with
  | nil => simp
  | cons f fs ih =>
    rw [List.flatMap_cons, List.nodup_append]
    simp only [List.map_cons, List.nodup_cons] at hnd
    refine ⟨contribPaths_nodup (hroot f (List.mem_cons_self f fs)).2,
      ih (fun g hg => hroot g (List.mem_cons_of_mem f hg)) hnd.2
        (fun g hg g2 hg2 => horig g (List.mem_cons_of_mem f hg) g2 (List.mem_cons_of_mem f hg2)),
      ?_⟩
    intro q hq hq2
    rcases List.mem_flatMap.mp hq2 with ⟨g, hg, hqg⟩
    obtain ⟨relf, hruf, hshf⟩ := contribPaths_shape hq
    obtain ⟨relg, hrug, hshg⟩ := contribPaths_shape hqg
    have hfe : relf = f.drop pkg.root.length := relUnder_some hruf
    have hge : relg = g.drop pkg.root.length := relUnder_some hrug
    have hfne : relf ≠ [] := by
      rw [hfe]
      exact (hroot f (List.mem_cons_self f fs)).2
    have hgne : relg ≠ [] := by
      rw [hge]
      exact (hroot g (List.mem_cons_of_mem f hg)).2
    have hfgne : relf ≠ relg := by
      intro he
      apply hnd.1
      rw [← hfe, he, hge]
      exact List.mem_map.mpr ⟨g, hg, rfl⟩
    rcases hshf with hf | hf <;> rcases hshg with hg2 | hg2
    · exact hfgne (hf ▸ hg2 ▸ rfl)
    · exact horig g (List.mem_cons_of_mem f hg) f (List.mem_cons_self f fs)
        (by rw [← hfe, ← hge, ← hf, ← hg2])
    · exact horig f (List.mem_cons_self f fs) g (List.mem_cons_of_mem f hg)
        (by rw [← hge, ← hfe, ← hg2, ← hf])
    · exact hfgne (origName_inj hfne hgne (hf ▸ hg2 ▸ rfl))

theorem pre_paths_nodup (pkg : Package) (rm : FsPath → Except String (Option Package))
    (srcFiles : List FsPath) (vcs : Option String)
    (hroot : ∀ f ∈ srcFiles, leadsWith pkg.root f = true ∧ f.drop pkg.root.length ≠ [])
    (hnd : (srcFiles.map (fun f => f.drop pkg.root.length)).Nodup)
    (horig : ∀ f ∈ srcFiles, ∀ g ∈ srcFiles,
      g.drop pkg.root.length ≠ origName (f.drop pkg.root.length)) :
    (srcFiles.flatMap (contribPaths pkg rm) ++
      (lockEntryList pkg).map (fun e => e.rel_path) ++
      (vcsEntryList vcs).map (fun e => e.rel_path)).Nodup := by
  have hbase := flatMap_contrib_nodup pkg rm srcFiles hroot hnd horig
  have hlock : ∀ q ∈ (lockEntryList pkg).map (fun e => e.rel_path),
      q = [("Cargo.lock" : String)] := by
    intro q hq
    rw [lockEntryList] at hq
    by_cases hil : pkg.include_lockfile
    · rw [if_pos hil] at hq
      simpa using hq
    · rw [if_neg hil] at hq
      simp at hq
  have hvcs : ∀ q ∈ (vcsEntryList vcs).map (fun e => e.rel_path),
      q = [VCS_INFO_FILE] := by
    intro q hq
    cases vcs with
    | none => simp [vcsEntryList] at hq
    | some s =>
      rw [vcsEntryList] at hq
      simpa using hq
  have hbase_lock : ∀ q ∈ srcFiles.flatMap (contribPaths pkg rm),
      q ≠ [("Cargo.lock" : String)] ∧ q ≠ [VCS_INFO_FILE] := by
    intro q hq
    rcases List.mem_flatMap.mp hq with ⟨g, hg, hqg⟩
    have hlast := contribPaths_last hqg
    constructor
    · intro he
      rw [he] at hlast
      exact hlast.1 rfl
    · intro he
      rw [he] at hlast
      exact hlast.2 rfl
  rw [List.nodup_append, List.nodup_append]
  refine ⟨⟨hbase, ?_, ?_⟩, ?_, ?_⟩
  · rw [lockEntryList]
    by_cases hil : pkg.include_lockfile
    · rw [if_pos hil]
      simp
    · rw [if_neg hil]
      simp
  · intro q hq hq2
    exact (hbase_lock q hq).1 (hlock q hq2)
  · cases vcs with
    | none => simp [vcsEntryList]
    | some s => simp [vcsEntryList]
  · intro q hq hq2
    rcases List.mem_append.mp hq with hq3 | hq3
    · exact (hbase_lock q hq3).2 (hvcs q hq2)
    · rw [hlock q hq3] at hq2
      have := hvcs _ hq2
      simp [VCS_INFO_FILE] at this

theorem any_map_rel (result : List ArchiveFile) (p : FsPath → Bool) :
    (result.map (fun e => e.rel_path)).any p = result.any (fun ar => p ar.rel_path) := by
  induction result with
  | nil => rfl
  | cons kv rest ih => simp [ih]

theorem map_addLicense (pkg : Package) (lic : Bool) (result : List ArchiveFile) :
    ((addLicense pkg lic result).1).map (fun e => e.rel_path) =
      relAddLicense pkg lic (result.map (fun e => e.rel_path)) := by
  simp only [addLicense, relAddLicense]
  cases hlf : pkg.metadata.license_file with
  | none => rfl
  | some lp =>
    by_cases hex : lic
    · simp only [hex, if_true]
      cases hru : relUnder pkg.root (normalizePath (joinPath pkg.root lp)) with
      | some rel =>
        dsimp only
        by_cases hc : result.any (fun ar => ar.rel_path = rel)
        · rw [if_pos hc, if_pos (by rw [any_map_rel]; exact hc)]
        · rw [Bool.not_eq_true] at hc
          rw [if_neg (by rw [hc]; simp), if_neg (by rw [any_map_rel, hc]; simp)]
          simp
      | none =>
        dsimp only
        by_cases hc : result.any (fun ar => ar.rel_path.getLastD "" = lp.getLastD "")
        · rw [if_pos hc, if_pos (by rw [any_map_rel]; exact hc)]
        · rw [Bool.not_eq_true] at hc
          rw [if_neg (by rw [hc]; simp), if_neg (by rw [any_map_rel, hc]; simp)]
          simp
    · rw [Bool.not_eq_true] at hex
      dsimp only
      rw [if_neg (by rw [hex]; simp), if_neg (by rw [hex]; simp)]

theorem relAddLicense_nodup {pkg : Package} {lic : Bool} {paths : List FsPath}
    (h : paths.Nodup) : (relAddLicense pkg lic paths).Nodup := by
  simp only [relAddLicense]
  cases hlf : pkg.metadata.license_file with
  | none => exact h
  | some lp =>
    by_cases hex : lic
    · simp only [hex, if_true]
      cases hru : relUnder pkg.root (normalizePath (joinPath pkg.root lp)) with
      | some rel =>
        dsimp only
        by_cases hc : paths.any (fun p => p = rel)
        · rw [if_pos hc]
          exact h
        · rw [Bool.not_eq_true] at hc
          rw [if_neg (by rw [hc]; simp)]
          rw [List.nodup_append]
          refine ⟨h, List.nodup_singleton rel, ?_⟩
          intro q hq hq2
          simp only [List.mem_singleton] at hq2
          have h2 : paths.any (fun p => p = rel) = true :=
            List.any_eq_true.mpr ⟨q, hq, by simp [hq2]⟩
          rw [hc] at h2
          simp at h2
      | none =>
        dsimp only
        by_cases hc : paths.any (fun p => p.getLastD "" = lp.getLastD "")
        · rw [if_pos hc]
          exact h
        · rw [Bool.not_eq_true] at hc
          rw [if_neg (by rw [hc]; simp)]
          rw [List.nodup_append]
          refine ⟨h, List.nodup_singleton _, ?_⟩
          intro q hq hq2
          simp only [List.mem_singleton] at hq2
          have h2 : paths.any (fun p => p.getLastD "" = lp.getLastD "") = true :=
            List.any_eq_true.mpr ⟨q, hq, by simp [hq2]⟩
          rw [hc] at h2
          simp at h2
    · rw [Bool.not_eq_true] at hex
      dsimp only
      rw [if_neg (by rw [hex]; simp)]
      exact h

theorem perm_any_congr {α : Type} {l1 l2 : List α} (h : l1.Perm l2) (p : α → Bool) :
    l1.any p = l2.any p := by
  by_cases h1 : l1.any p = true
  · rcases List.any_eq_true.mp h1 with ⟨a, ha, hpa⟩
    rw [h1, (List.any_eq_true.mpr ⟨a, h.mem_iff.mp ha, hpa⟩).symm]
  · rw [Bool.not_eq_true] at h1
    have h2 : l2.any p = false := by
      rw [← Bool.not_eq_true]
      intro hc
      rcases List.any_eq_true.mp hc with ⟨a, ha, hpa⟩
      have h3 := List.any_eq_true.mpr ⟨a, h.mem_iff.mpr ha, hpa⟩
      rw [h1] at h3
      simp at h3
    rw [h1, h2]

theorem relAddLicense_perm {pkg : Package} {lic : Bool} {p1 p2 : List FsPath}
    (h : p1.Perm p2) : (relAddLicense pkg lic p1).Perm (relAddLicense pkg lic p2) := by
  simp only [relAddLicense]
  cases hlf : pkg.metadata.license_file with
  | none => exact h
  | some lp =>
    by_cases hex : lic
    · simp only [hex, if_true]
      cases hru : relUnder pkg.root (normalizePath (joinPath pkg.root lp)) with
      | some rel =>
        dsimp only
        rw [perm_any_congr h]
        by_cases hc : p2.any (fun p => p = rel)
        · rw [if_pos hc, if_pos hc]
          exact h
        · rw [Bool.not_eq_true] at hc
          rw [if_neg (by rw [hc]; simp), if_neg (by rw [hc]; simp)]
          exact h.append_right _
      | none =>
        dsimp only
        rw [perm_any_congr h]
        by_cases hc : p2.any (fun p => p.getLastD "" = lp.getLastD "")
        · rw [if_pos hc, if_pos hc]
          exact h
        · rw [Bool.not_eq_true] at hc
          rw [if_neg (by rw [hc]; simp), if_neg (by rw [hc]; simp)]
          exact h.append_right _
    · rw [Bool.not_eq_true] at hex
      dsimp only
      rw [if_neg (by rw [hex]; simp), if_neg (by rw [hex]; simp)]
      exact h

theorem relUnder_leads {b p r : FsPath} (h : relUnder b p = some r) :
    leadsWith b p = true := by
  rw [relUnder] at h
  split_ifs at h with hc
  exact hc

theorem processSrcFiles_leads {pkg : Package} {rm : FsPath → Except String (Option Package)}
    {fs : List FsPath} {es : List ArchiveFile} {ws : List String}
    (h : processSrcFiles pkg rm fs = .ok (es, ws)) :
    ∀ f ∈ fs, leadsWith pkg.root f = true := by
  induction fs generalizing es ws with
  | nil => simp
  | cons f fs ih =>
    simp only [processSrcFiles] at h
    cases ha : arEntriesFor pkg rm f with
    | error e => rw [ha] at h; simp at h
    | ok p1 =>
      obtain ⟨es1, ws1⟩ := p1
      rw [ha] at h
      cases hp : processSrcFiles pkg rm fs with
      | error e => rw [hp] at h; simp at h
      | ok p2 =>
        intro g hg
        rcases List.mem_cons.mp hg with hg | hg
        · subst hg
          obtain ⟨rel, hru, _⟩ := arEntriesFor_ok ha
          exact relUnder_leads hru
        · exact ih hp g hg

/-- C1 (amended): the entry list is always sorted by relative path, and its
relative-path sequence depends only on the set of candidates (it is unchanged
under any permutation of the enumeration order); these two hold for every
input.  Relative paths are additionally unique provided the candidates are a
set of files strictly below the package root whose relative paths are pairwise
distinct and no candidate's relative path is the ".orig" name derived from
another candidate's relative path (a candidate named like Cargo.toml.orig
collides with the generated preserved original, see the counterexample). -/
theorem c1_sorted_unique (pkg : Package) (rm : FsPath → Except String (Option Package))
    (srcFiles srcFiles' : List FsPath) (vcs : Option String) (lic : Bool)
    (l l' : List ArchiveFile) (w w' : List String)
    (hperm : srcFiles.Perm srcFiles')
    (h : build_ar_list pkg rm srcFiles vcs lic = .ok (l, w))
    (h' : build_ar_list pkg rm srcFiles' vcs lic = .ok (l', w')) :
    List.Sorted PathLeP (l.map (fun e => e.rel_path)) ∧
    l'.map (fun e => e.rel_path) = l.map (fun e => e.rel_path) ∧
    ((∀ f ∈ srcFiles, f.drop pkg.root.length ≠ []) →
      (srcFiles.map (fun f => f.drop pkg.root.length)).Nodup →
      (∀ f ∈ srcFiles, ∀ g ∈ srcFiles,
        g.drop pkg.root.length ≠ origName (f.drop pkg.root.length)) →
      (l.map (fun e => e.rel_path)).Nodup) := by
  obtain ⟨base, ws1, hp, hl⟩ := build_ar_list_ok h
  obtain ⟨base', ws1', hp', hl'⟩ := build_ar_list_ok h'
  have hsorted : List.Sorted PathLeP (l.map (fun e => e.rel_path)) := by
    rw [hl]
    exact List.Pairwise.map _ (fun a b hab => hab) (List.sorted_insertionSort EntryLe _)
  have hsorted' : List.Sorted PathLeP (l'.map (fun e => e.rel_path)) := by
    rw [hl']
    exact List.Pairwise.map _ (fun a b hab => hab) (List.sorted_insertionSort EntryLe _)
  have hbase := (processSrcFiles_ok hp).1
  have hbase' := (processSrcFiles_ok hp').1
  have hmapX : ((addLicense pkg lic (base ++ lockEntryList pkg ++ vcsEntryList vcs)).1).map
      (fun e => e.rel_path) =
      relAddLicense pkg lic (srcFiles.flatMap (contribPaths pkg rm) ++
        (lockEntryList pkg).map (fun e => e.rel_path) ++
        (vcsEntryList vcs).map (fun e => e.rel_path)) := by
    rw [map_addLicense, List.map_append, List.map_append, hbase]
  have hmapX' : ((addLicense pkg lic (base' ++ lockEntryList pkg ++ vcsEntryList vcs)).1).map
      (fun e => e.rel_path) =
      relAddLicense pkg lic (srcFiles'.flatMap (contribPaths pkg rm) ++
        (lockEntryList pkg).map (fun e => e.rel_path) ++
        (vcsEntryList vcs).map (fun e => e.rel_path)) := by
    rw [map_addLicense, List.map_append, List.map_append, hbase']
  have hpermX : (l.map (fun e => e.rel_path)).Perm
      (relAddLicense pkg lic (srcFiles.flatMap (contribPaths pkg rm) ++
        (lockEntryList pkg).map (fun e => e.rel_path) ++
        (vcsEntryList vcs).map (fun e => e.rel_path))) := by
    rw [hl, ← hmapX]
    exact (List.perm_insertionSort EntryLe _).map _
  have hpermX' : (l'.map (fun e => e.rel_path)).Perm
      (relAddLicense pkg lic (srcFiles'.flatMap (contribPaths pkg rm) ++
        (lockEntryList pkg).map (fun e => e.rel_path) ++
        (vcsEntryList vcs).map (fun e => e.rel_path))) := by
    rw [hl', ← hmapX']
    exact (List.perm_insertionSort EntryLe _).map _
  have hPP' : (srcFiles.flatMap (contribPaths pkg rm) ++
      (lockEntryList pkg).map (fun e => e.rel_path) ++
      (vcsEntryList vcs).map (fun e => e.rel_path)).Perm
      (srcFiles'.flatMap (contribPaths pkg rm) ++
        (lockEntryList pkg).map (fun e => e.rel_path) ++
        (vcsEntryList vcs).map (fun e => e.rel_path)) :=
    ((List.Perm.flatMap_right (contribPaths pkg rm) hperm).append_right _).append_right _
  have hfinal : (l'.map (fun e => e.rel_path)).Perm (l.map (fun e => e.rel_path)) :=
    hpermX'.trans ((relAddLicense_perm hPP').symm.trans hpermX.symm)
  refine ⟨hsorted, List.eq_of_perm_of_sorted hfinal hsorted' hsorted, ?_⟩
  intro hne hnd horig
  have hroot : ∀ f ∈ srcFiles, leadsWith pkg.root f = true ∧ f.drop pkg.root.length ≠ [] :=
    fun f hf => ⟨processSrcFiles_leads hp f hf, hne f hf⟩
  have hPnodup := pre_paths_nodup pkg rm srcFiles vcs hroot hnd horig
  exact (hpermX.nodup_iff).mpr (relAddLicense_nodup hPnodup)

theorem c1_sorted_unique_witness :
    List.Sorted PathLeP
      (([⟨["Cargo.toml"], "Cargo.toml",
          .generated (.manifest
            (⟨["r"], "p", "1", false, ⟨none, none, none, none, none, none⟩, [], [], []⟩ : Package))⟩,
        ⟨["Cargo.toml.orig"], "Cargo.toml.orig", .onDisk ["r", "Cargo.toml"]⟩,
        ⟨["src", "main.rs"], "src/main.rs", .onDisk ["r", "src", "main.rs"]⟩] :
        List ArchiveFile).map (fun e => e.rel_path)) ∧
    (([⟨["Cargo.toml"], "Cargo.toml",
          .generated (.manifest
            (⟨["r"], "p", "1", false, ⟨none, none, none, none, none, none⟩, [], [], []⟩ : Package))⟩,
        ⟨["Cargo.toml.orig"], "Cargo.toml.orig", .onDisk ["r", "Cargo.toml"]⟩,
        ⟨["src", "main.rs"], "src/main.rs", .onDisk ["r", "src", "main.rs"]⟩] :
        List ArchiveFile).map (fun e => e.rel_path)).Nodup := by
  have h := c1_sorted_unique
    (⟨["r"], "p", "1", false, ⟨none, none, none, none, none, none⟩, [], [], []⟩ : Package)
    (fun _ => .ok none)
    [["r", "Cargo.toml"], ["r", "src", "main.rs"]]
    [["r", "src", "main.rs"], ["r", "Cargo.toml"]]
    none false
    [⟨["Cargo.toml"], "Cargo.toml",
        .generated (.manifest
          (⟨["r"], "p", "1", false, ⟨none, none, none, none, none, none⟩, [], [], []⟩ : Package))⟩,
      ⟨["Cargo.toml.orig"], "Cargo.toml.orig", .onDisk ["r", "Cargo.toml"]⟩,
      ⟨["src", "main.rs"], "src/main.rs", .onDisk ["r", "src", "main.rs"]⟩]
    [⟨["Cargo.toml"], "Cargo.toml",
        .generated (.manifest
          (⟨["r"], "p", "1", false, ⟨none, none, none, none, none, none⟩, [], [], []⟩ : Package))⟩,
      ⟨["Cargo.toml.orig"], "Cargo.toml.orig", .onDisk ["r", "Cargo.toml"]⟩,
      ⟨["src", "main.rs"], "src/main.rs", .onDisk ["r", "src", "main.rs"]⟩]
    [] []
    (List.Perm.swap _ _ _) rfl rfl
  exact ⟨h.1, h.2.2 (by decide) (by decide) (by decide)⟩
